import Mathlib

/-!
Verification of the MQ broker reconciler (`internal/service/mq/broker.go`).

The Go source operates on Terraform `schema.Set` / `map[string]interface{}`
values.  The embedding models a broker user declaration (one element of the
`user` set) as the structure `UserSpec`; a `*schema.Set` of group names is
modelled by its `.List()` image, which is a canonical list determined solely
by the membership of the set (the SDK orders a set's list by element hash,
a deterministic function of the members; here the canonical order is the
lexicographic one, via `canonGroups`).  Go maps keyed by username are
modelled as association lists with the insert-overwrite and delete
operations used by the source.  Strings are Lean strings; Go's `len` on a
string (bytes) is modelled as character count.
-/

namespace MQBroker

/-- One element of the `user` set of the broker resource, after the schema
layer has produced its `map[string]interface{}` (keys `username`, `password`,
`console_access`, `replication_user`, `groups`). -/
structure UserSpec where
  username : String
  password : String
  console_access : Bool
  replication_user : Bool
  groups : List String
deriving DecidableEq

/-- Model of `(*schema.Set).List()` on a set of group-name strings: the list
determined by the set's membership alone (deduplicated, in a canonical
order). -/
def canonGroups (gs : List String) : List String :=
  List.insertionSort (fun a b => a ≤ b) gs.dedup

/-- A user map after its `groups` set has been converted to its canonical
list form, as `DiffBrokerUsers` does for both old and new entries. -/
def canonUser (u : UserSpec) : UserSpec :=
  { username := u.username, password := u.password,
    console_access := u.console_access, replication_user := u.replication_user,
    groups := canonGroups u.groups }

/-- Lookup in a Go map modelled as an association list. -/
def lookupA {α : Type} : List (String × α) → String → Option α
  | [], _ => none
  | p :: rest, k => if p.1 = k then some p.2 else lookupA rest k

/-- Go map assignment `m[k] = v`: overwrite the entry if the key is present,
otherwise add it. -/
def goMapInsert {α : Type} (m : List (String × α)) (k : String) (v : α) :
    List (String × α) :=
  if (lookupA m k).isSome then
    m.map (fun p => if p.1 = k then (k, v) else p)
  else
    m ++ [(k, v)]

/-- Go `delete(m, k)`. -/
def eraseA {α : Type} : List (String × α) → String → List (String × α)
  | [], _ => []
  | p :: rest, k => if p.1 = k then eraseA rest k else p :: eraseA rest k

/-- `mq.CreateUserInput` as built by `DiffBrokerUsers`: `Groups` is only
assigned when the new user's group list is non-empty, hence an `Option`. -/
structure CreateUserInput where
  BrokerId : String
  ConsoleAccess : Bool
  Password : String
  ReplicationUser : Bool
  Username : String
  Groups : Option (List String)
deriving DecidableEq

/-- `mq.UpdateUserInput` as built by `DiffBrokerUsers`: `Groups` is always
assigned (possibly the empty list). -/
structure UpdateUserInput where
  BrokerId : String
  ConsoleAccess : Bool
  Groups : List String
  ReplicationUser : Bool
  Password : String
  Username : String
deriving DecidableEq

/-- `mq.DeleteUserInput` as built by `DiffBrokerUsers`. -/
structure DeleteUserInput where
  BrokerId : String
  Username : String
deriving DecidableEq

/-- The `CreateUserInput` built from a (already canonicalised) new user:
`cur.Groups` is set only `if len(ng) > 0`. -/
def mkCreateUserInput (bId : String) (u : UserSpec) : CreateUserInput :=
  { BrokerId := bId, ConsoleAccess := u.console_access, Password := u.password,
    ReplicationUser := u.replication_user, Username := u.username,
    Groups := if u.groups.length > 0 then some u.groups else none }

/-- The `UpdateUserInput` built from a (already canonicalised) new user. -/
def mkUpdateUserInput (bId : String) (u : UserSpec) : UpdateUserInput :=
  { BrokerId := bId, ConsoleAccess := u.console_access, Groups := u.groups,
    ReplicationUser := u.replication_user, Password := u.password,
    Username := u.username }

/-- The first loop of `DiffBrokerUsers`: index the old users by username into
the working map `existingUsers` (`existingUsers[username] = u`, with each
user's `groups` set converted to its list form). -/
def buildExisting (oldUsers : List UserSpec) : List (String × UserSpec) :=
  oldUsers.foldl (fun m u => goMapInsert m u.username (canonUser u)) []

/-- The second loop of `DiffBrokerUsers`: walk the new users against the
working map, emitting creates and updates and erasing matched usernames.
Returns (creates, updates, remaining working map). -/
def diffGo (bId : String) :
    List (String × UserSpec) → List UserSpec →
    List CreateUserInput × List UpdateUserInput × List (String × UserSpec)
  | ex, [] => ([], [], ex)
  | ex, nu :: rest =>
    let nuc := canonUser nu
    match lookupA ex nu.username with
    | some eu =>
      let r := diffGo bId (eraseA ex nu.username) rest
      if eu = nuc then r else (r.1, mkUpdateUserInput bId nuc :: r.2.1, r.2.2)
    | none =>
      let r := diffGo bId ex rest
      (mkCreateUserInput bId nuc :: r.1, r.2.1, r.2.2)

/-- `DiffBrokerUsers(bId, oldUsers, newUsers)`: returns the create, delete
and update operation lists (in that order, matching the Go result order
`cr, di, ur`).  The delete list is built from the usernames remaining in the
working map after the new users have been processed. -/
def DiffBrokerUsers (bId : String) (oldUsers newUsers : List UserSpec) :
    List CreateUserInput × List DeleteUserInput × List UpdateUserInput :=
  let r := diffGo bId (buildExisting oldUsers) newUsers
  (r.1, r.2.2.map (fun p => { BrokerId := bId, Username := p.1 }), r.2.1)

/-- The create operations of `DiffBrokerUsers`. -/
def brokerUserCreates (bId : String) (oldUsers newUsers : List UserSpec) :
    List CreateUserInput :=
  (DiffBrokerUsers bId oldUsers newUsers).1

/-- The delete operations of `DiffBrokerUsers`. -/
def brokerUserDeletes (bId : String) (oldUsers newUsers : List UserSpec) :
    List DeleteUserInput :=
  (DiffBrokerUsers bId oldUsers newUsers).2.1

/-- The update operations of `DiffBrokerUsers`. -/
def brokerUserUpdates (bId : String) (oldUsers newUsers : List UserSpec) :
    List UpdateUserInput :=
  (DiffBrokerUsers bId oldUsers newUsers).2.2

/-- A new user is created exactly when its username is absent from the
working map built from the old users. -/
def isNewUsername (ex : List (String × UserSpec)) (u : UserSpec) : Bool :=
  (lookupA ex u.username).isNone

/-- A new user is updated exactly when its username is present in the
working map but the stored old user differs structurally (Go's
`reflect.DeepEqual` on the two maps, groups already in list form). -/
def isChangedUser (ex : List (String × UserSpec)) (u : UserSpec) : Bool :=
  match lookupA ex u.username with
  | some eu => if eu = canonUser u then false else true
  | none => false

/-- A new user whose username exists among the old users with a structurally
different spec. -/
def changedFromOld (oldUsers : List UserSpec) (u : UserSpec) : Bool :=
  isChangedUser (buildExisting oldUsers) u

/-- A new user whose username exists among the old users with a structurally
equal spec (no operation is emitted for it). -/
def unchangedFromOld (oldUsers : List UserSpec) (u : UserSpec) : Bool :=
  match lookupA (buildExisting oldUsers) u.username with
  | some eu => if eu = canonUser u then true else false
  | none => false

/-- The user a `CreateUserInput` asks the remote side to create (`Groups`
unset means no group assignment, i.e. the empty group set). -/
def userOfCreate (c : CreateUserInput) : UserSpec :=
  { username := c.Username, password := c.Password,
    console_access := c.ConsoleAccess, replication_user := c.ReplicationUser,
    groups := c.Groups.getD [] }

/-- The user an `UpdateUserInput` asks the remote side to store. -/
def userOfUpdate (u : UpdateUserInput) : UserSpec :=
  { username := u.Username, password := u.Password,
    console_access := u.ConsoleAccess, replication_user := u.ReplicationUser,
    groups := u.Groups }

/-- Apply the create operations to a remote user map. -/
def applyCreates (cs : List CreateUserInput) (m : List (String × UserSpec)) :
    List (String × UserSpec) :=
  cs.foldl (fun m c => goMapInsert m c.Username (userOfCreate c)) m

/-- Apply the delete operations to a remote user map. -/
def applyDeletes (ds : List DeleteUserInput) (m : List (String × UserSpec)) :
    List (String × UserSpec) :=
  ds.foldl (fun m d => eraseA m d.Username) m

/-- Apply the update operations to a remote user map. -/
def applyUpdates (us : List UpdateUserInput) (m : List (String × UserSpec)) :
    List (String × UserSpec) :=
  us.foldl (fun m u => goMapInsert m u.Username (userOfUpdate u)) m

/-- Two user specs that agree on every field, with the group lists compared
as sets (order-insensitively). -/
def UserEquiv (u v : UserSpec) : Prop :=
  u.username = v.username ∧ u.password = v.password ∧
  u.console_access = v.console_access ∧
  u.replication_user = v.replication_user ∧
  (∀ g, g ∈ u.groups ↔ g ∈ v.groups)

/-- `ValidBrokerPassword`: returns the list of validation errors.  The loop
collects the distinct characters of the password (modelled by `dedup`) and
emits the comma error the first time a comma is seen; then the
distinct-character count and the length are checked.  Go's byte length is
modelled as character count. -/
def ValidBrokerPassword (value : String) : List String :=
  (if (',' ∈ value.data) then ["must not contain commas"] else []) ++
  (if value.data.dedup.length < 4 then
     ["must contain at least 4 unique characters"] else []) ++
  (if value.length < 12 ∨ 250 < value.length then
     ["must be 12 to 250 characters long"] else [])

/-- `types.User` as assembled by `expandUsersForBroker` from a `DescribeUser`
response: no password, optional flags. -/
structure RemoteUser where
  ConsoleAccess : Option Bool
  Groups : List String
  ReplicationUser : Option Bool
  Username : String
deriving DecidableEq

/-- A flattened `user` map as produced by `flattenUsers`: `none` fields model
map keys that are not set. -/
structure FlatUser where
  username : String
  password : Option String
  console_access : Option Bool
  replication_user : Option Bool
  groups : Option (List String)
deriving DecidableEq

/-- The `existingPairs` map of `flattenUsers`: username to declared password,
built from the previously configured users. -/
def buildPairs (cfgUsers : List UserSpec) : List (String × String) :=
  cfgUsers.foldl (fun m u => goMapInsert m u.username u.password) []

/-- The flattened map built for a single remote-reported user: the password
is looked up in `existingPairs` (defaulting to `""`), and the `password` key
is set only when that lookup produced a non-empty string; `console_access`
and `replication_user` are set when the remote value is non-nil, and `groups`
only when non-empty. -/
def flattenOneUser (pairs : List (String × String)) (u : RemoteUser) :
    FlatUser :=
  let password := match lookupA pairs u.Username with
    | some p => p
    | none => ""
  { username := u.Username,
    password := if password ≠ "" then some password else none,
    console_access := u.ConsoleAccess,
    replication_user := u.ReplicationUser,
    groups := if u.Groups.length > 0 then some u.Groups else none }

/-- `flattenUsers(users, cfgUsers)`: merge the write-only passwords of the
previously configured users into the remote-reported user list. -/
def flattenUsers (users : List RemoteUser) (cfgUsers : List UserSpec) :
    List FlatUser :=
  users.map (flattenOneUser (buildPairs cfgUsers))

/-- A remote call issued by `resourceBrokerUpdate` (each `UpdateBroker`
variant tagged by the field group it carries). -/
inductive BrokerCall where
  | updateSecurityGroups
  | updateConfiguration
  | createUser (c : CreateUserInput)
  | deleteUser (d : DeleteUserInput)
  | updateUser (u : UpdateUserInput)
  | updateHostInstanceType
  | updateAutoMinorVersionUpgrade
  | updateMaintenanceWindow
  | rebootBroker
deriving DecidableEq

/-- The `d.HasChange(...)` answers consulted by `resourceBrokerUpdate`, one
per independently handled field group. -/
structure BrokerChanges where
  security_groups : Bool
  configuration_logs_engine_version : Bool
  user : Bool
  host_instance_type : Bool
  auto_minor_version_upgrade : Bool
  maintenance_window_start_time : Bool
deriving DecidableEq

/-- The remote user calls issued by `updateBrokerUsers` (creates, then
deletes, then updates, in the Go loop order). -/
def userOpCalls (bId : String) (oldUsers newUsers : List UserSpec) :
    List BrokerCall :=
  (brokerUserCreates bId oldUsers newUsers).map BrokerCall.createUser ++
  (brokerUserDeletes bId oldUsers newUsers).map BrokerCall.deleteUser ++
  (brokerUserUpdates bId oldUsers newUsers).map BrokerCall.updateUser

/-- `resourceBrokerUpdate` on its error-free path: the sequence of remote
calls issued for a given change set.  `requiresReboot` starts false; the
configuration/logs/engine-version, host-instance-type,
auto-minor-version-upgrade and maintenance-window branches set it, the user
branch sets it only when `updateBrokerUsers` actually issued an operation
(`usersUpdated`), and the security-groups branch never sets it.  At the end
a `RebootBroker` call is issued iff `apply_immediately` is set and
`requiresReboot` holds. -/
def resourceBrokerUpdate (bId : String) (applyImmediately : Bool)
    (ch : BrokerChanges) (oldUsers newUsers : List UserSpec) :
    List BrokerCall :=
  let calls1 := if ch.security_groups then [BrokerCall.updateSecurityGroups]
    else []
  let rr1 := false
  let calls2 := if ch.configuration_logs_engine_version then
      calls1 ++ [BrokerCall.updateConfiguration] else calls1
  let rr2 := if ch.configuration_logs_engine_version then true else rr1
  let userCalls := if ch.user then userOpCalls bId oldUsers newUsers else []
  let calls3 := calls2 ++ userCalls
  let rr3 := if userCalls.isEmpty then rr2 else true
  let calls4 := if ch.host_instance_type then
      calls3 ++ [BrokerCall.updateHostInstanceType] else calls3
  let rr4 := if ch.host_instance_type then true else rr3
  let calls5 := if ch.auto_minor_version_upgrade then
      calls4 ++ [BrokerCall.updateAutoMinorVersionUpgrade] else calls4
  let rr5 := if ch.auto_minor_version_upgrade then true else rr4
  let calls6 := if ch.maintenance_window_start_time then
      calls5 ++ [BrokerCall.updateMaintenanceWindow] else calls5
  let rr6 := if ch.maintenance_window_start_time then true else rr5
  if applyImmediately && rr6 then calls6 ++ [BrokerCall.rebootBroker]
  else calls6

/-- ASCII lowercasing of a string, character by character. -/
def lowerStr (s : String) : String := String.mk (s.data.map Char.toLower)

/-- Model of `strings.EqualFold` on the strings involved here: equality of
the lowercase forms. -/
def eqFold (a b : String) : Bool := lowerStr a == lowerStr b

/-- The `DiffSuppressFunc` of the `user` attribute: suppress the diff iff
the engine type equals `"RABBITMQ"` case-insensitively
(`types.EngineTypeRabbitmq`) and the stored `arn` is non-empty (the resource
already exists). -/
def userDiffSuppress (engineType arn : String) : Bool :=
  if eqFold engineType "RABBITMQ" && arn != "" then true else false

/-- Model of the terraform-plugin-sdk helper `id.PrefixedUniqueId` (external
to this repository): the given prefix followed by a suffix that is unique
per call (a timestamp and a process-wide counter, modelled as explicit
parameters). -/
def prefixedUniqueId (p : String) (timestamp counter : Nat) : String :=
  p ++ toString timestamp ++ toString counter

/-- The `CreatorRequestId` built by `resourceBrokerCreate`:
`id.PrefixedUniqueId(fmt.Sprintf("tf-%s", name))`. -/
def creatorRequestId (name : String) (timestamp counter : Nat) : String :=
  prefixedUniqueId ("tf-" ++ name) timestamp counter

/-- The classification of a failed `findBrokerByID` result:
`NotFoundException` is wrapped into a `retry.NotFoundError` (recognised by
`tfresource.NotFound`), a `ForbiddenException` passes through (recognised by
`errs.IsA[*types.ForbiddenException]`), anything else is opaque. -/
inductive FindErr where
  | notFound
  | forbidden
  | other
deriving DecidableEq

/-- The remote broker description, reduced to what the claims need. -/
structure BrokerData where
  BrokerArn : String
deriving DecidableEq

/-- The outcome of `resourceBrokerRead`'s error handling. -/
inductive ReadResult where
  | removedFromState
  | failed (e : FindErr)
  | ok (b : BrokerData)
deriving DecidableEq

/-- The head of `resourceBrokerRead`: if `findBrokerByID` failed and the
resource is not freshly created and the error is NotFound or Forbidden, the
id is cleared and no error is returned; any other error is propagated. -/
def resourceBrokerRead (isNewResource : Bool)
    (find : Except FindErr BrokerData) : ReadResult :=
  match find with
  | Except.error e =>
    if !isNewResource && (e == FindErr.notFound || e == FindErr.forbidden)
    then ReadResult.removedFromState
    else ReadResult.failed e
  | Except.ok b => ReadResult.ok b

/-- Sample user with groups in declaration order `g1, g2`. -/
def sampleUserOld : UserSpec :=
  { username := "a", password := "correct-Horse99", console_access := false,
    replication_user := false, groups := ["g1", "g2"] }

/-- The same user with groups in declaration order `g2, g1`. -/
def sampleUserNew : UserSpec :=
  { username := "a", password := "correct-Horse99", console_access := false,
    replication_user := false, groups := ["g2", "g1"] }

/-- Sample user with an empty group list. -/
def sampleUserNoGroups : UserSpec :=
  { username := "aa", password := "correct-Horse99", console_access := false,
    replication_user := false, groups := [] }

/-- Sample user with one group. -/
def sampleUserOneGroup : UserSpec :=
  { username := "aa", password := "correct-Horse99", console_access := false,
    replication_user := false, groups := ["g1"] }

/-- Sample previously configured user `alice` with password `P`. -/
def sampleUserAlice : UserSpec :=
  { username := "alice", password := "P", console_access := false,
    replication_user := false, groups := [] }

/-- Sample remote-reported user `alice` (no password in the response). -/
def sampleRemoteAlice : RemoteUser :=
  { ConsoleAccess := some false, Groups := [], ReplicationUser := some false,
    Username := "alice" }

/-- Sample remote-reported user `bob`, unknown to the prior configuration. -/
def sampleRemoteBob : RemoteUser :=
  { ConsoleAccess := some false, Groups := [], ReplicationUser := some false,
    Username := "bob" }

/-! ### Canonical group lists -/

theorem mem_canonGroups {x : String} {l : List String} :
    x ∈ canonGroups l ↔ x ∈ l := by
  unfold canonGroups
  rw [(List.perm_insertionSort _ _).mem_iff, List.mem_dedup]

theorem canonGroups_eq_of_mem_iff {l₁ l₂ : List String}
    (h : ∀ x, x ∈ l₁ ↔ x ∈ l₂) : canonGroups l₁ = canonGroups l₂ := by
  unfold canonGroups
  refine List.eq_of_perm_of_sorted ?_ (List.sorted_insertionSort _ _)
    (List.sorted_insertionSort _ _)
  refine ((List.perm_insertionSort _ _).trans ?_).trans
    (List.perm_insertionSort _ _).symm
  exact (List.perm_ext_iff_of_nodup (List.nodup_dedup l₁)
    (List.nodup_dedup l₂)).mpr (fun a => by
      rw [List.mem_dedup, List.mem_dedup]; exact h a)

theorem canonGroups_nil : canonGroups [] = [] := rfl

theorem canonGroups_eq_nil {l : List String} :
    canonGroups l = [] ↔ l = [] := by
  constructor
  · intro h
    cases l with
    | nil => rfl
    | cons a t =>
      exfalso
      have ha : a ∈ canonGroups (a :: t) :=
        mem_canonGroups.mpr (List.mem_cons_self a t)
      rw [h] at ha
      cases ha
  · intro h; subst h; rfl

theorem canonUser_username (u : UserSpec) :
    (canonUser u).username = u.username := rfl

theorem canonUser_eq_of_equiv {u v : UserSpec} (h : UserEquiv u v) :
    canonUser u = canonUser v := by
  obtain ⟨h1, h2, h3, h4, h5⟩ := h
  unfold canonUser
  rw [h1, h2, h3, h4, canonGroups_eq_of_mem_iff h5]

/-! ### Association-list (Go map) lemmas -/

theorem lookupA_append {α : Type} (m₁ m₂ : List (String × α)) (k : String) :
    lookupA (m₁ ++ m₂) k =
      match lookupA m₁ k with
      | some v => some v
      | none => lookupA m₂ k := by
  induction m₁ with
  | nil => rfl
  | cons p rest ih =>
    by_cases h : p.1 = k <;> simp [lookupA, h, ih]

theorem lookupA_eq_none_forall {α : Type} {m : List (String × α)} {k : String}
    (h : lookupA m k = none) : ∀ p ∈ m, p.1 ≠ k := by
  induction m with
  | nil => intro p hp; cases hp
  | cons q rest ih =>
    intro p hp
    by_cases hq : q.1 = k
    · simp [lookupA, hq] at h
    · rcases List.mem_cons.mp hp with h' | h'
      · subst h'; exact hq
      · exact ih (by simpa [lookupA, hq] using h) p h'

theorem lookupA_replace {α : Type} (m : List (String × α)) (k : String)
    (v : α) (k' : String) :
    lookupA (m.map (fun p => if p.1 = k then (k, v) else p)) k' =
      if k' = k then (if (lookupA m k).isSome then some v else none)
      else lookupA m k' := by
  induction m with
  | nil => by_cases h : k' = k <;> simp [lookupA, h]
  | cons p rest ih =>
    by_cases hp : p.1 = k
    · by_cases hk : k' = k
      · subst hk; simp [lookupA, hp, ih]
      · have hpk : ¬ p.1 = k' := by rw [hp]; exact fun h => hk h.symm
        have hk' : ¬ k = k' := fun h => hk h.symm
        simp [lookupA, hp, hk, ih, hpk, hk']
    · by_cases hpk : p.1 = k'
      · have hk : ¬ k' = k := by
          intro h; exact hp (by rw [hpk, h])
        simp [lookupA, hp, hpk, hk, ih]
      · simp [lookupA, hp, hpk, ih]

theorem lookupA_goMapInsert {α : Type} (m : List (String × α)) (k : String)
    (v : α) (k' : String) :
    lookupA (goMapInsert m k v) k' =
      if k' = k then some v else lookupA m k' := by
  unfold goMapInsert
  by_cases hs : (lookupA m k).isSome
  · rw [if_pos hs, lookupA_replace]
    by_cases hk : k' = k <;> simp [hk, hs]
  · rw [if_neg hs, lookupA_append]
    have hnone : lookupA m k = none := by
      cases h : lookupA m k with
      | none => rfl
      | some w => rw [h] at hs; simp at hs
    by_cases hk : k' = k
    · subst hk; simp [hnone, lookupA]
    · have hk' : ¬ k = k' := fun h => hk h.symm
      cases h : lookupA m k' with
      | none => simp [h, lookupA, hk', hk]
      | some w => simp [h, lookupA, hk', hk]

theorem eraseA_eq_filter {α : Type} (m : List (String × α)) (k : String) :
    eraseA m k = m.filter (fun p => !(p.1 == k)) := by
  induction m with
  | nil => rfl
  | cons p rest ih =>
    by_cases h : p.1 = k <;> simp [eraseA, h, ih, List.filter_cons]

theorem lookupA_eraseA {α : Type} (m : List (String × α)) (k k' : String) :
    lookupA (eraseA m k) k' = if k' = k then none else lookupA m k' := by
  induction m with
  | nil => simp [eraseA, lookupA]
  | cons p rest ih =>
    simp only [eraseA]
    by_cases hp : p.1 = k
    · rw [if_pos hp, ih]
      by_cases hk : k' = k
      · simp [hk]
      · have hpk : ¬ p.1 = k' := by rw [hp]; exact fun h => hk h.symm
        simp [hk, lookupA, hpk]
    · rw [if_neg hp]
      simp only [lookupA]
      by_cases hpk : p.1 = k'
      · have hk : ¬ k' = k := by intro h; exact hp (by rw [hpk, h])
        simp [hpk, hk]
      · simp [hpk, ih]

theorem find?_key_unique {β : Type} (key : β → String) {l : List β}
    (hn : (l.map key).Nodup) {x : β} (hx : x ∈ l) :
    l.find? (fun y => key y == key x) = some x := by
  induction l with
  | nil => cases hx
  | cons a t ih =>
    have hhead : key a ∉ t.map key := (List.nodup_cons.mp (by simpa using hn)).1
    rcases List.mem_cons.mp hx with h | h
    · subst h
      rw [List.find?_cons_of_pos _ (by simp)]
    · have hne : ¬ key a = key x := by
        intro he
        exact hhead (he ▸ List.mem_map_of_mem key h)
      rw [List.find?_cons_of_neg _ (by simp [hne])]
      exact ih (List.nodup_cons.mp (by simpa using hn)).2 h

theorem find?_key_eq_none {β : Type} (key : β → String) {l : List β}
    {k : String} (h : ¬ k ∈ l.map key) :
    l.find? (fun y => key y == k) = none := by
  rw [List.find?_eq_none]
  intro x hx
  simp only [beq_iff_eq]
  intro he
  exact h (he ▸ List.mem_map_of_mem key hx)

theorem lookupA_map_pair {α β : Type} (key : β → String) (val : β → α)
    (l : List β) (k : String) :
    lookupA (l.map (fun x => (key x, val x))) k =
      (l.find? (fun x => key x == k)).map val := by
  induction l with
  | nil => rfl
  | cons a t ih =>
    by_cases h : key a = k
    · rw [List.find?_cons_of_pos _ (by simp [h])]
      simp [lookupA, h]
    · rw [List.find?_cons_of_neg _ (by simp [h])]
      simp [lookupA, h, ih]

theorem foldl_goMapInsert_build {α β : Type} (key : β → String)
    (val : β → α) :
    ∀ (l : List β) (m : List (String × α)),
      (l.map key).Nodup → (∀ x ∈ l, lookupA m (key x) = none) →
      l.foldl (fun m x => goMapInsert m (key x) (val x)) m =
        m ++ l.map (fun x => (key x, val x)) := by
  intro l
  induction l with
  | nil => intro m _ _; simp
  | cons a t ih =>
    intro m hn hdis
    have hhead : key a ∉ t.map key := (List.nodup_cons.mp (by simpa using hn)).1
    simp only [List.foldl_cons]
    have ha : lookupA m (key a) = none := hdis a (List.mem_cons_self a t)
    have hins : goMapInsert m (key a) (val a) = m ++ [(key a, val a)] := by
      unfold goMapInsert
      rw [ha]
      rfl
    rw [hins, ih _ ?_ ?_]
    · simp
    · exact (List.nodup_cons.mp (by simpa using hn)).2
    · intro x hx
      rw [lookupA_append, hdis x (List.mem_cons_of_mem a hx)]
      have hne : ¬ key a = key x := by
        intro he
        exact hhead (he ▸ List.mem_map_of_mem key hx)
      simp [lookupA, hne]

theorem buildExisting_eq (old : List UserSpec)
    (hold : (old.map UserSpec.username).Nodup) :
    buildExisting old = old.map (fun u => (u.username, canonUser u)) := by
  have h := foldl_goMapInsert_build UserSpec.username canonUser old []
    hold (fun x _ => rfl)
  simpa [buildExisting] using h

theorem lookupA_buildExisting (old : List UserSpec)
    (hold : (old.map UserSpec.username).Nodup) (k : String) :
    lookupA (buildExisting old) k =
      (old.find? (fun u => u.username == k)).map canonUser := by
  rw [buildExisting_eq old hold, lookupA_map_pair]

theorem buildPairs_eq (cfg : List UserSpec)
    (hn : (cfg.map UserSpec.username).Nodup) :
    buildPairs cfg = cfg.map (fun u => (u.username, u.password)) := by
  have h := foldl_goMapInsert_build UserSpec.username UserSpec.password cfg []
    hn (fun x _ => rfl)
  simpa [buildPairs] using h

theorem lookupA_buildPairs (cfg : List UserSpec)
    (hn : (cfg.map UserSpec.username).Nodup) (k : String) :
    lookupA (buildPairs cfg) k =
      (cfg.find? (fun u => u.username == k)).map UserSpec.password := by
  rw [buildPairs_eq cfg hn, lookupA_map_pair]

theorem lookupA_foldl_insert_nin {α β : Type} (key : β → String)
    (val : β → α) (l : List β) (m : List (String × α)) (k : String)
    (h : ∀ x ∈ l, key x ≠ k) :
    lookupA (l.foldl (fun m x => goMapInsert m (key x) (val x)) m) k =
      lookupA m k := by
  induction l generalizing m with
  | nil => rfl
  | cons a t ih =>
    simp only [List.foldl_cons]
    rw [ih _ (fun x hx => h x (List.mem_cons_of_mem a hx)),
      lookupA_goMapInsert, if_neg ?_]
    exact fun he => h a (List.mem_cons_self a t) he.symm

theorem lookupA_foldl_insert_mem {α β : Type} (key : β → String)
    (val : β → α) {l : List β} (hn : (l.map key).Nodup) {x : β}
    (hx : x ∈ l) (m : List (String × α)) :
    lookupA (l.foldl (fun m y => goMapInsert m (key y) (val y)) m) (key x) =
      some (val x) := by
  induction l generalizing m with
  | nil => cases hx
  | cons a t ih =>
    have hhead : key a ∉ t.map key := (List.nodup_cons.mp (by simpa using hn)).1
    simp only [List.foldl_cons]
    rcases List.mem_cons.mp hx with h | h
    · subst h
      rw [lookupA_foldl_insert_nin key val t _ _ ?_, lookupA_goMapInsert,
        if_pos rfl]
      intro y hy he
      exact hhead (he ▸ List.mem_map_of_mem key hy)
    · exact ih (List.nodup_cons.mp (by simpa using hn)).2 h _

theorem lookupA_foldl_erase {α β : Type} (key : β → String) (l : List β)
    (m : List (String × α)) (k : String) :
    lookupA (l.foldl (fun m x => eraseA m (key x)) m) k =
      if k ∈ l.map key then none else lookupA m k := by
  induction l generalizing m with
  | nil => simp
  | cons a t ih =>
    simp only [List.foldl_cons]
    rw [ih]
    by_cases ht : k ∈ t.map key
    · simp [ht]
    · by_cases ha : k = key a
      · simp [ht, ha, lookupA_eraseA]
      · simp [ht, ha, lookupA_eraseA]

/-! ### Characterisation of the differ -/

theorem contains_iff_mem {l : List String} {a : String} :
    l.contains a = true ↔ a ∈ l := by
  simp [List.contains, List.elem_iff]

theorem filter_map_comm {α β : Type} (f : α → β) (p : β → Bool)
    (l : List α) :
    (l.map f).filter p = (l.filter (fun a => p (f a))).map f := by
  induction l with
  | nil => rfl
  | cons a t ih => by_cases h : p (f a) <;> simp [List.filter_cons, h, ih]

theorem diffGo_spec (bId : String) :
    ∀ (new : List UserSpec) (ex : List (String × UserSpec)),
      (new.map UserSpec.username).Nodup →
      diffGo bId ex new =
        ((new.filter (fun u => isNewUsername ex u)).map
            (fun u => mkCreateUserInput bId (canonUser u)),
         (new.filter (fun u => isChangedUser ex u)).map
            (fun u => mkUpdateUserInput bId (canonUser u)),
         ex.filter (fun p => !((new.map UserSpec.username).contains p.1))) := by
  intro new
  induction new with
  | nil =>
    intro ex _
    simp [diffGo]
  | cons nu rest ih =>
    intro ex hn
    have hhead : nu.username ∉ rest.map UserSpec.username :=
      (List.nodup_cons.mp (by simpa using hn)).1
    have hrest : (rest.map UserSpec.username).Nodup :=
      (List.nodup_cons.mp (by simpa using hn)).2
    have hcr : rest.filter (fun u => isNewUsername (eraseA ex nu.username) u)
        = rest.filter (fun u => isNewUsername ex u) := by
      apply List.filter_congr
      intro u hu
      unfold isNewUsername
      rw [lookupA_eraseA, if_neg ?_]
      intro he
      exact hhead (he ▸ List.mem_map_of_mem UserSpec.username hu)
    have hur : rest.filter (fun u => isChangedUser (eraseA ex nu.username) u)
        = rest.filter (fun u => isChangedUser ex u) := by
      apply List.filter_congr
      intro u hu
      unfold isChangedUser
      rw [lookupA_eraseA, if_neg ?_]
      intro he
      exact hhead (he ▸ List.mem_map_of_mem UserSpec.username hu)
    have hrem : (eraseA ex nu.username).filter
          (fun p => !((rest.map UserSpec.username).contains p.1))
        = ex.filter (fun p =>
            !((nu.username :: rest.map UserSpec.username).contains p.1)) := by
      rw [eraseA_eq_filter, List.filter_filter]
      apply List.filter_congr
      intro p _
      by_cases hpn : p.1 = nu.username <;>
        simp [List.contains_cons, Bool.and_comm, hpn]
    cases hlk : lookupA ex nu.username with
    | some eu =>
      have hnew : isNewUsername ex nu = false := by
        simp [isNewUsername, hlk]
      by_cases heq : eu = canonUser nu
      · have hchg : isChangedUser ex nu = false := by
          simp [isChangedUser, hlk, heq]
        simp only [diffGo, hlk, heq, if_pos]
        rw [ih (eraseA ex nu.username) hrest, hcr, hur, hrem]
        simp [List.filter_cons, hnew, hchg]
      · have hchg : isChangedUser ex nu = true := by
          simp [isChangedUser, hlk, heq]
        simp only [diffGo, hlk]
        rw [if_neg heq, ih (eraseA ex nu.username) hrest, hcr, hur, hrem]
        simp [List.filter_cons, hnew, hchg]
    | none =>
      have hnew : isNewUsername ex nu = true := by
        simp [isNewUsername, hlk]
      have hchg : isChangedUser ex nu = false := by
        simp [isChangedUser, hlk]
      have hremn : ex.filter
            (fun p => !((rest.map UserSpec.username).contains p.1))
          = ex.filter (fun p =>
              !((nu.username :: rest.map UserSpec.username).contains p.1)) := by
        apply List.filter_congr
        intro p hp
        have hne : p.1 ≠ nu.username := lookupA_eq_none_forall hlk p hp
        simp [List.contains_cons, hne]
      simp only [diffGo, hlk]
      rw [ih ex hrest, hremn]
      simp [List.filter_cons, hnew, hchg]

theorem DiffBrokerUsers_eq (bId : String) (old new : List UserSpec)
    (hnew : (new.map UserSpec.username).Nodup) :
    DiffBrokerUsers bId old new =
      ((new.filter (fun u => isNewUsername (buildExisting old) u)).map
          (fun u => mkCreateUserInput bId (canonUser u)),
       ((buildExisting old).filter
           (fun p => !((new.map UserSpec.username).contains p.1))).map
          (fun p => { BrokerId := bId, Username := p.1 }),
       (new.filter (fun u => isChangedUser (buildExisting old) u)).map
          (fun u => mkUpdateUserInput bId (canonUser u))) := by
  unfold DiffBrokerUsers
  rw [diffGo_spec bId new (buildExisting old) hnew]

theorem isNewUsername_buildExisting (old : List UserSpec)
    (hold : (old.map UserSpec.username).Nodup) (u : UserSpec) :
    isNewUsername (buildExisting old) u =
      !((old.map UserSpec.username).contains u.username) := by
  unfold isNewUsername
  rw [lookupA_buildExisting old hold]
  by_cases h : u.username ∈ old.map UserSpec.username
  · obtain ⟨v, hv, he⟩ := List.mem_map.mp h
    have hf := find?_key_unique UserSpec.username hold hv
    rw [he] at hf
    rw [hf]
    have hc : (old.map UserSpec.username).contains u.username = true :=
      contains_iff_mem.mpr h
    simp only [hc, Bool.not_true]
    rfl
  · rw [find?_key_eq_none UserSpec.username h]
    have hc : (old.map UserSpec.username).contains u.username = false := by
      cases hcc : (old.map UserSpec.username).contains u.username with
      | false => rfl
      | true => exact absurd (contains_iff_mem.mp hcc) h
    simp only [hc, Bool.not_false]
    rfl

theorem brokerUserCreates_eq (bId : String) (old new : List UserSpec)
    (hold : (old.map UserSpec.username).Nodup)
    (hnew : (new.map UserSpec.username).Nodup) :
    brokerUserCreates bId old new =
      (new.filter
          (fun u => !((old.map UserSpec.username).contains u.username))).map
        (fun u => mkCreateUserInput bId (canonUser u)) := by
  unfold brokerUserCreates
  rw [DiffBrokerUsers_eq bId old new hnew]
  exact congrArg _ (List.filter_congr
    (fun u _ => isNewUsername_buildExisting old hold u))

theorem brokerUserUpdates_eq (bId : String) (old new : List UserSpec)
    (hnew : (new.map UserSpec.username).Nodup) :
    brokerUserUpdates bId old new =
      (new.filter (fun u => changedFromOld old u)).map
        (fun u => mkUpdateUserInput bId (canonUser u)) := by
  unfold brokerUserUpdates
  rw [DiffBrokerUsers_eq bId old new hnew]
  rfl

theorem brokerUserDeletes_eq (bId : String) (old new : List UserSpec)
    (hold : (old.map UserSpec.username).Nodup)
    (hnew : (new.map UserSpec.username).Nodup) :
    brokerUserDeletes bId old new =
      (old.filter
          (fun u => !((new.map UserSpec.username).contains u.username))).map
        (fun u => { BrokerId := bId, Username := u.username }) := by
  unfold brokerUserDeletes
  rw [DiffBrokerUsers_eq bId old new hnew, buildExisting_eq old hold,
    filter_map_comm, List.map_map]
  rfl

/-! ### Further helper lemmas -/

theorem contains_eq_false {l : List String} {a : String} :
    l.contains a = false ↔ ¬ a ∈ l := by
  constructor
  · intro h hm
    rw [contains_iff_mem.mpr hm] at h
    cases h
  · intro h
    cases hc : l.contains a with
    | false => rfl
    | true => exact absurd (contains_iff_mem.mp hc) h

theorem contains_eq_isSome (old : List UserSpec)
    (hold : (old.map UserSpec.username).Nodup) (k : String) :
    ((old.map UserSpec.username).contains k) =
      (lookupA (buildExisting old) k).isSome := by
  by_cases h : k ∈ old.map UserSpec.username
  · rw [contains_iff_mem.mpr h]
    obtain ⟨v, hv, he⟩ := List.mem_map.mp h
    rw [lookupA_buildExisting old hold]
    have hf := find?_key_unique UserSpec.username hold hv
    rw [he] at hf
    rw [hf]
    rfl
  · rw [contains_eq_false.mpr h, lookupA_buildExisting old hold,
      find?_key_eq_none UserSpec.username h]
    rfl

theorem changed_lookup {old : List UserSpec} {u : UserSpec}
    (h : changedFromOld old u = true) :
    ∃ eu, lookupA (buildExisting old) u.username = some eu ∧
      eu ≠ canonUser u := by
  unfold changedFromOld isChangedUser at h
  cases hL : lookupA (buildExisting old) u.username with
  | none => rw [hL] at h; cases h
  | some eu =>
    rw [hL] at h
    by_cases he : eu = canonUser u
    · simp [he] at h
    · exact ⟨eu, rfl, he⟩

theorem unchanged_lookup {old : List UserSpec} {u : UserSpec}
    (h : unchangedFromOld old u = true) :
    lookupA (buildExisting old) u.username = some (canonUser u) := by
  unfold unchangedFromOld at h
  cases hL : lookupA (buildExisting old) u.username with
  | none => rw [hL] at h; cases h
  | some eu =>
    rw [hL] at h
    by_cases he : eu = canonUser u
    · rw [he]
    · simp [he] at h

theorem unchanged_of_lookup {old : List UserSpec} {u : UserSpec}
    (h : lookupA (buildExisting old) u.username = some (canonUser u)) :
    unchangedFromOld old u = true := by
  unfold unchangedFromOld
  rw [h]
  simp

theorem changed_of_lookup {old : List UserSpec} {u : UserSpec} {eu : UserSpec}
    (h : lookupA (buildExisting old) u.username = some eu)
    (hne : eu ≠ canonUser u) :
    changedFromOld old u = true := by
  unfold changedFromOld isChangedUser
  rw [h]
  simp [hne]

theorem userOfCreate_mkCreate (bId : String) (v : UserSpec) :
    userOfCreate (mkCreateUserInput bId v) = v := by
  obtain ⟨un, pw, ca, ru, gs⟩ := v
  cases gs with
  | nil => rfl
  | cons a t => simp [userOfCreate, mkCreateUserInput]

theorem userOfUpdate_mkUpdate (bId : String) (v : UserSpec) :
    userOfUpdate (mkUpdateUserInput bId v) = v := rfl

theorem mem_filter_names {new : List UserSpec} {q : UserSpec → Bool}
    {k : String} :
    k ∈ (new.filter q).map UserSpec.username ↔
      ∃ u ∈ new, q u = true ∧ u.username = k := by
  simp only [List.mem_map, List.mem_filter]
  tauto

theorem nodup_filter_names {new : List UserSpec}
    (hn : (new.map UserSpec.username).Nodup) (q : UserSpec → Bool) :
    ((new.filter q).map UserSpec.username).Nodup :=
  List.Nodup.sublist ((List.filter_sublist new).map UserSpec.username) hn

theorem brokerUserCreates_names (bId : String) (old new : List UserSpec)
    (hold : (old.map UserSpec.username).Nodup)
    (hnew : (new.map UserSpec.username).Nodup) :
    (brokerUserCreates bId old new).map CreateUserInput.Username =
      (new.filter
          (fun u => !((old.map UserSpec.username).contains u.username))).map
        UserSpec.username := by
  rw [brokerUserCreates_eq bId old new hold hnew, List.map_map]
  rfl

theorem brokerUserUpdates_names (bId : String) (old new : List UserSpec)
    (hnew : (new.map UserSpec.username).Nodup) :
    (brokerUserUpdates bId old new).map UpdateUserInput.Username =
      (new.filter (fun u => changedFromOld old u)).map UserSpec.username := by
  rw [brokerUserUpdates_eq bId old new hnew, List.map_map]
  rfl

theorem brokerUserDeletes_names (bId : String) (old new : List UserSpec)
    (hold : (old.map UserSpec.username).Nodup)
    (hnew : (new.map UserSpec.username).Nodup) :
    (brokerUserDeletes bId old new).map DeleteUserInput.Username =
      (old.filter
          (fun u => !((new.map UserSpec.username).contains u.username))).map
        UserSpec.username := by
  rw [brokerUserDeletes_eq bId old new hold hnew, List.map_map]
  rfl

/-! ### Diff of equivalent collections is empty -/

theorem forall₂_mem_right {X Y : List UserSpec}
    (h : List.Forall₂ UserEquiv X Y) :
    ∀ y ∈ Y, ∃ x ∈ X, UserEquiv x y := by
  induction h with
  | nil => intro y hy; cases hy
  | cons hxy htl ih =>
    intro y hy
    rcases List.mem_cons.mp hy with h' | h'
    · refine ⟨_, List.mem_cons_self _ _, ?_⟩
      rw [h']
      exact hxy
    · obtain ⟨x, hx, hxy'⟩ := ih y h'
      exact ⟨x, List.mem_cons_of_mem _ hx, hxy'⟩

theorem forall₂_names_eq {X Y : List UserSpec}
    (h : List.Forall₂ UserEquiv X Y) :
    Y.map UserSpec.username = X.map UserSpec.username := by
  induction h with
  | nil => rfl
  | cons hxy htl ih => simp [ih, hxy.1]

theorem DiffBrokerUsers_equiv_empty (bId : String) {X Y : List UserSpec}
    (hX : (X.map UserSpec.username).Nodup)
    (hXY : List.Forall₂ UserEquiv X Y) :
    DiffBrokerUsers bId X Y = ([], [], []) := by
  have hnames := forall₂_names_eq hXY
  have hY : (Y.map UserSpec.username).Nodup := by rw [hnames]; exact hX
  have hlk : ∀ y ∈ Y, lookupA (buildExisting X) y.username =
      some (canonUser y) := by
    intro y hy
    obtain ⟨x, hx, hxy⟩ := forall₂_mem_right hXY y hy
    rw [lookupA_buildExisting X hX]
    have hf := find?_key_unique UserSpec.username hX hx
    rw [hxy.1] at hf
    rw [hf]
    simp [canonUser_eq_of_equiv hxy]
  rw [DiffBrokerUsers_eq bId X Y hY]
  have h1 : Y.filter (fun u => isNewUsername (buildExisting X) u) = [] := by
    rw [List.filter_eq_nil_iff]
    intro y hy
    simp [isNewUsername, hlk y hy]
  have h2 : Y.filter (fun u => isChangedUser (buildExisting X) u) = [] := by
    rw [List.filter_eq_nil_iff]
    intro y hy
    simp [isChangedUser, hlk y hy]
  have h3 : (buildExisting X).filter
      (fun p => !((Y.map UserSpec.username).contains p.1)) = [] := by
    rw [List.filter_eq_nil_iff]
    intro p hp
    rw [buildExisting_eq X hX] at hp
    obtain ⟨x, hx, he⟩ := List.mem_map.mp hp
    have hp1 : p.1 = x.username := by rw [← he]
    have hm : p.1 ∈ Y.map UserSpec.username := by
      rw [hnames, hp1]
      exact List.mem_map_of_mem UserSpec.username hx
    rw [contains_iff_mem.mpr hm]
    simp
  rw [h1, h2, h3]
  rfl

/-! ### Partition of the usernames by the emitted operations -/

theorem filter_names_subset {l : List UserSpec} {q : UserSpec → Bool}
    {k : String} (h : k ∈ (l.filter q).map UserSpec.username) :
    k ∈ l.map UserSpec.username := by
  obtain ⟨u, hu, _, he⟩ := mem_filter_names.mp h
  exact he ▸ List.mem_map_of_mem UserSpec.username hu

theorem disjoint_filter_names {new : List UserSpec}
    (hnew : (new.map UserSpec.username).Nodup) {q₁ q₂ : UserSpec → Bool}
    (h : ∀ u ∈ new, ¬(q₁ u = true ∧ q₂ u = true)) :
    List.Disjoint ((new.filter q₁).map UserSpec.username)
      ((new.filter q₂).map UserSpec.username) := by
  intro k hk1 hk2
  obtain ⟨u1, hu1, hq1, he1⟩ := mem_filter_names.mp hk1
  obtain ⟨u2, hu2, hq2, he2⟩ := mem_filter_names.mp hk2
  cases List.inj_on_of_nodup_map hnew hu1 hu2 (by rw [he1, he2])
  exact h u1 hu1 ⟨hq1, hq2⟩

theorem disjoint_new_deletes {old new : List UserSpec}
    {q : UserSpec → Bool} :
    List.Disjoint ((new.filter q).map UserSpec.username)
      ((old.filter (fun u =>
          !((new.map UserSpec.username).contains u.username))).map
        UserSpec.username) := by
  intro k hk1 hk2
  have hkn : k ∈ new.map UserSpec.username := filter_names_subset hk1
  obtain ⟨u, hu, hq, he⟩ := mem_filter_names.mp hk2
  have hcf : (new.map UserSpec.username).contains u.username = false := by
    simpa using hq
  rw [he] at hcf
  exact contains_eq_false.mp hcf hkn

theorem lookup_of_not_contains {old : List UserSpec}
    (hold : (old.map UserSpec.username).Nodup) {k : String}
    (h : (old.map UserSpec.username).contains k = false) :
    lookupA (buildExisting old) k = none := by
  rw [contains_eq_isSome old hold] at h
  cases hL : lookupA (buildExisting old) k with
  | none => rfl
  | some eu => rw [hL] at h; simp at h

theorem diff_names_nodup (bId : String) (old new : List UserSpec)
    (hold : (old.map UserSpec.username).Nodup)
    (hnew : (new.map UserSpec.username).Nodup) :
    ((brokerUserCreates bId old new).map CreateUserInput.Username
      ++ (brokerUserUpdates bId old new).map UpdateUserInput.Username
      ++ (new.filter (fun u => unchangedFromOld old u)).map UserSpec.username
      ++ (brokerUserDeletes bId old new).map
            DeleteUserInput.Username).Nodup := by
  rw [brokerUserCreates_names bId old new hold hnew,
    brokerUserUpdates_names bId old new hnew,
    brokerUserDeletes_names bId old new hold hnew]
  have hex1 : ∀ u ∈ new,
      ¬((!((old.map UserSpec.username).contains u.username)) = true ∧
        changedFromOld old u = true) := by
    intro u _ hcon
    obtain ⟨h1, h2⟩ := hcon
    obtain ⟨eu, hL, _⟩ := changed_lookup h2
    rw [lookup_of_not_contains hold (by simpa using h1)] at hL
    cases hL
  have hex2 : ∀ u ∈ new,
      ¬((!((old.map UserSpec.username).contains u.username)) = true ∧
        unchangedFromOld old u = true) := by
    intro u _ hcon
    obtain ⟨h1, h2⟩ := hcon
    have hL := unchanged_lookup h2
    rw [lookup_of_not_contains hold (by simpa using h1)] at hL
    cases hL
  have hex3 : ∀ u ∈ new,
      ¬(changedFromOld old u = true ∧ unchangedFromOld old u = true) := by
    intro u _ hcon
    obtain ⟨h1, h2⟩ := hcon
    obtain ⟨eu, hL, hne⟩ := changed_lookup h1
    have hL2 := unchanged_lookup h2
    rw [hL] at hL2
    injection hL2 with h3
    exact hne h3
  refine List.nodup_append.mpr ⟨?_, nodup_filter_names hold _, ?_⟩
  · refine List.nodup_append.mpr ⟨?_, nodup_filter_names hnew _, ?_⟩
    · exact List.nodup_append.mpr ⟨nodup_filter_names hnew _,
        nodup_filter_names hnew _, disjoint_filter_names hnew hex1⟩
    · rw [List.disjoint_append_left]
      exact ⟨disjoint_filter_names hnew hex2, disjoint_filter_names hnew hex3⟩
  · rw [List.disjoint_append_left, List.disjoint_append_left]
    exact ⟨⟨disjoint_new_deletes, disjoint_new_deletes⟩,
      disjoint_new_deletes⟩

theorem diff_names_union (bId : String) (old new : List UserSpec)
    (hold : (old.map UserSpec.username).Nodup)
    (hnew : (new.map UserSpec.username).Nodup) (k : String) :
    k ∈ (brokerUserCreates bId old new).map CreateUserInput.Username
      ++ (brokerUserUpdates bId old new).map UpdateUserInput.Username
      ++ (new.filter (fun u => unchangedFromOld old u)).map UserSpec.username
      ++ (brokerUserDeletes bId old new).map DeleteUserInput.Username ↔
    k ∈ old.map UserSpec.username ∨ k ∈ new.map UserSpec.username := by
  rw [brokerUserCreates_names bId old new hold hnew,
    brokerUserUpdates_names bId old new hnew,
    brokerUserDeletes_names bId old new hold hnew]
  simp only [List.mem_append]
  constructor
  · rintro (((h | h) | h) | h)
    · exact Or.inr (filter_names_subset h)
    · exact Or.inr (filter_names_subset h)
    · exact Or.inr (filter_names_subset h)
    · exact Or.inl (filter_names_subset h)
  · intro h
    by_cases hn : k ∈ new.map UserSpec.username
    · obtain ⟨u, hu, he⟩ := List.mem_map.mp hn
      cases hL : lookupA (buildExisting old) u.username with
      | none =>
        left; left; left
        refine mem_filter_names.mpr ⟨u, hu, ?_, he⟩
        rw [contains_eq_isSome old hold, hL]
        rfl
      | some eu =>
        by_cases heq : eu = canonUser u
        · left; right
          exact mem_filter_names.mpr
            ⟨u, hu, unchanged_of_lookup (heq ▸ hL), he⟩
        · left; left; right
          exact mem_filter_names.mpr ⟨u, hu, changed_of_lookup hL heq, he⟩
    · have ho : k ∈ old.map UserSpec.username := h.resolve_right hn
      right
      obtain ⟨u, hu, he⟩ := List.mem_map.mp ho
      refine mem_filter_names.mpr ⟨u, hu, ?_, he⟩
      rw [he, contains_eq_false.mpr hn]
      rfl

/-! ### Applying the emitted operations yields the new collection -/

theorem apply_diff_lookup (bId : String) (old new : List UserSpec)
    (hold : (old.map UserSpec.username).Nodup)
    (hnew : (new.map UserSpec.username).Nodup) (k : String) :
    lookupA (applyUpdates (brokerUserUpdates bId old new)
        (applyDeletes (brokerUserDeletes bId old new)
          (applyCreates (brokerUserCreates bId old new)
            (buildExisting old)))) k
      = lookupA (buildExisting new) k := by
  have hcrn := brokerUserCreates_names bId old new hold hnew
  have hurn := brokerUserUpdates_names bId old new hnew
  have hden := brokerUserDeletes_names bId old new hold hnew
  have hurnd :
      ((brokerUserUpdates bId old new).map UpdateUserInput.Username).Nodup := by
    rw [hurn]; exact nodup_filter_names hnew _
  have hcrnd :
      ((brokerUserCreates bId old new).map CreateUserInput.Username).Nodup := by
    rw [hcrn]; exact nodup_filter_names hnew _
  rw [lookupA_buildExisting new hnew]
  unfold applyUpdates applyDeletes applyCreates
  by_cases hn : k ∈ new.map UserSpec.username
  · obtain ⟨u, hu, he⟩ := List.mem_map.mp hn
    have hfind := find?_key_unique UserSpec.username hnew hu
    rw [he] at hfind
    rw [hfind]
    have hnd : ¬ k ∈ (brokerUserDeletes bId old new).map
        DeleteUserInput.Username := by
      rw [hden]
      intro hmem
      obtain ⟨v, hv, hqv, hev⟩ := mem_filter_names.mp hmem
      have hcf : (new.map UserSpec.username).contains v.username = false := by
        simpa using hqv
      rw [hev] at hcf
      exact contains_eq_false.mp hcf hn
    cases hL : lookupA (buildExisting old) u.username with
    | none =>
      have hqc : (!((old.map UserSpec.username).contains u.username))
          = true := by
        rw [contains_eq_isSome old hold, hL]
        rfl
      have hnu : ∀ x ∈ brokerUserUpdates bId old new,
          UpdateUserInput.Username x ≠ k := by
        intro x hx hxe
        have hmem : k ∈ (brokerUserUpdates bId old new).map
            UpdateUserInput.Username := hxe ▸ List.mem_map_of_mem _ hx
        rw [hurn] at hmem
        obtain ⟨v, hv, hqv, hev⟩ := mem_filter_names.mp hmem
        obtain ⟨eu, hLv, _⟩ := changed_lookup hqv
        rw [show v.username = u.username from hev.trans he.symm, hL] at hLv
        cases hLv
      rw [lookupA_foldl_insert_nin UpdateUserInput.Username userOfUpdate
        _ _ _ hnu, lookupA_foldl_erase DeleteUserInput.Username, if_neg hnd]
      have hcm : mkCreateUserInput bId (canonUser u) ∈
          brokerUserCreates bId old new := by
        rw [brokerUserCreates_eq bId old new hold hnew]
        exact List.mem_map_of_mem _ (List.mem_filter.mpr ⟨hu, hqc⟩)
      have hv := lookupA_foldl_insert_mem CreateUserInput.Username
        userOfCreate hcrnd hcm (buildExisting old)
      rw [show CreateUserInput.Username (mkCreateUserInput bId (canonUser u))
        = k from he] at hv
      rw [hv, userOfCreate_mkCreate]
      rfl
    | some eu =>
      by_cases heq : eu = canonUser u
      · have hnu : ∀ x ∈ brokerUserUpdates bId old new,
            UpdateUserInput.Username x ≠ k := by
          intro x hx hxe
          have hmem : k ∈ (brokerUserUpdates bId old new).map
              UpdateUserInput.Username := hxe ▸ List.mem_map_of_mem _ hx
          rw [hurn] at hmem
          obtain ⟨v, hv, hqv, hev⟩ := mem_filter_names.mp hmem
          have hvu : v = u :=
            List.inj_on_of_nodup_map hnew hv hu (hev.trans he.symm)
          obtain ⟨eu2, hL2, hne2⟩ := changed_lookup hqv
          rw [hvu] at hL2 hne2
          rw [hL] at hL2
          injection hL2 with h3
          exact hne2 (h3 ▸ heq)
        have hnc : ∀ x ∈ brokerUserCreates bId old new,
            CreateUserInput.Username x ≠ k := by
          intro x hx hxe
          have hmem : k ∈ (brokerUserCreates bId old new).map
              CreateUserInput.Username := hxe ▸ List.mem_map_of_mem _ hx
          rw [hcrn] at hmem
          obtain ⟨v, hv, hqv, hev⟩ := mem_filter_names.mp hmem
          have hvu : v = u :=
            List.inj_on_of_nodup_map hnew hv hu (hev.trans he.symm)
          rw [hvu] at hqv
          rw [lookup_of_not_contains hold (by simpa using hqv)] at hL
          cases hL
        rw [lookupA_foldl_insert_nin UpdateUserInput.Username userOfUpdate
          _ _ _ hnu, lookupA_foldl_erase DeleteUserInput.Username,
          if_neg hnd,
          lookupA_foldl_insert_nin CreateUserInput.Username userOfCreate
          _ _ _ hnc, ← he, hL, heq]
        rfl
      · have hum : mkUpdateUserInput bId (canonUser u) ∈
            brokerUserUpdates bId old new := by
          rw [brokerUserUpdates_eq bId old new hnew]
          exact List.mem_map_of_mem _
            (List.mem_filter.mpr ⟨hu, changed_of_lookup hL heq⟩)
        have hv := lookupA_foldl_insert_mem UpdateUserInput.Username
          userOfUpdate hurnd hum
          ((brokerUserDeletes bId old new).foldl
            (fun m d => eraseA m d.Username)
            ((brokerUserCreates bId old new).foldl
              (fun m c => goMapInsert m c.Username (userOfCreate c))
              (buildExisting old)))
        rw [show UpdateUserInput.Username (mkUpdateUserInput bId
          (canonUser u)) = k from he] at hv
        rw [hv, userOfUpdate_mkUpdate]
        rfl
  · rw [find?_key_eq_none UserSpec.username hn]
    have hnu : ∀ x ∈ brokerUserUpdates bId old new,
        UpdateUserInput.Username x ≠ k := by
      intro x hx hxe
      have hmem : k ∈ (brokerUserUpdates bId old new).map
          UpdateUserInput.Username := hxe ▸ List.mem_map_of_mem _ hx
      rw [hurn] at hmem
      exact hn (filter_names_subset hmem)
    rw [lookupA_foldl_insert_nin UpdateUserInput.Username userOfUpdate
      _ _ _ hnu, lookupA_foldl_erase DeleteUserInput.Username]
    by_cases ho : k ∈ old.map UserSpec.username
    · have hkd : k ∈ (brokerUserDeletes bId old new).map
          DeleteUserInput.Username := by
        rw [hden]
        obtain ⟨u, hu, he⟩ := List.mem_map.mp ho
        refine mem_filter_names.mpr ⟨u, hu, ?_, he⟩
        rw [he, contains_eq_false.mpr hn]
        rfl
      rw [if_pos hkd]
      rfl
    · have hnd : ¬ k ∈ (brokerUserDeletes bId old new).map
          DeleteUserInput.Username := by
        rw [hden]
        intro hmem
        exact ho (filter_names_subset hmem)
      have hnc : ∀ x ∈ brokerUserCreates bId old new,
          CreateUserInput.Username x ≠ k := by
        intro x hx hxe
        have hmem : k ∈ (brokerUserCreates bId old new).map
            CreateUserInput.Username := hxe ▸ List.mem_map_of_mem _ hx
        rw [hcrn] at hmem
        exact hn (filter_names_subset hmem)
      rw [if_neg hnd, lookupA_foldl_insert_nin CreateUserInput.Username
        userOfCreate _ _ _ hnc, lookupA_buildExisting old hold,
        find?_key_eq_none UserSpec.username ho]

/-! ### Claim theorems -/

/-- Claim C3: `ValidBrokerPassword` accepts a password (returns no errors)
iff its length is between 12 and 250 characters, it has at least 4 distinct
characters and contains no comma; `"short1"`, `"aaaaaaaaaaaa"` and
`"abc,defghijk"` are rejected and `"correct-Horse99"` is accepted. -/
theorem validBrokerPassword_iff :
    (∀ v : String, ValidBrokerPassword v = [] ↔
      (12 ≤ v.length ∧ v.length ≤ 250 ∧ 4 ≤ v.data.dedup.length ∧
        ¬ (',' ∈ v.data))) ∧
    ValidBrokerPassword "short1" ≠ [] ∧
    ValidBrokerPassword "aaaaaaaaaaaa" ≠ [] ∧
    ValidBrokerPassword "abc,defghijk" ≠ [] ∧
    ValidBrokerPassword "correct-Horse99" = [] := by
  refine ⟨?_, by decide, by decide, by decide, by decide⟩
  intro v
  by_cases hc : (',' ∈ v.data) <;>
  by_cases hd : v.data.dedup.length < 4 <;>
  by_cases hl : v.length < 12 ∨ 250 < v.length <;>
    simp [ValidBrokerPassword, hc, hd, hl] <;> omega

/-- Claim C6: the `user` attribute diff is suppressed iff the engine type
equals RabbitMQ case-insensitively and the stored ARN is non-empty (the
resource already exists); otherwise the diff is not suppressed. -/
theorem userDiffSuppress_iff (engineType arn : String) :
    userDiffSuppress engineType arn = true ↔
      (lowerStr engineType = "rabbitmq" ∧ arn ≠ "") := by
  have hR : lowerStr "RABBITMQ" = "rabbitmq" := by decide
  unfold userDiffSuppress eqFold
  rw [hR]
  by_cases h1 : lowerStr engineType = "rabbitmq" <;>
  by_cases h2 : arn = "" <;> simp [h1, h2]

/-- Claim C7 (counterexample): the `CreatorRequestId` is not a deterministic
function of the broker name alone — two create calls for the same name, made
in different call contexts (timestamp/counter), produce different tokens. -/
theorem creatorRequestId_not_deterministic :
    creatorRequestId "b" 1 0 ≠ creatorRequestId "b" 2 0 := by decide

/-- Claim C7 (amended): the token's prefix `"tf-" ++ name` is derived
deterministically from the resource name, and the remainder is a
per-call unique suffix. -/
theorem creatorRequestId_deterministic_prefix_only (name : String)
    (timestamp counter : Nat) :
    ∃ s, creatorRequestId name timestamp counter = "tf-" ++ name ++ s := by
  refine ⟨toString timestamp ++ toString counter, ?_⟩
  unfold creatorRequestId prefixedUniqueId
  rw [String.append_assoc, String.append_assoc]

/-- Claim C8: a NotFound or Forbidden result from the remote describe call
clears the local record without error when the resource is not freshly
created, and is propagated as an error when it is. -/
theorem brokerRead_notfound_forbidden (e : FindErr)
    (h : e = FindErr.notFound ∨ e = FindErr.forbidden) :
    resourceBrokerRead false (Except.error e) = ReadResult.removedFromState ∧
    resourceBrokerRead true (Except.error e) = ReadResult.failed e := by
  rcases h with h | h <;> subst h <;> exact ⟨rfl, rfl⟩

/-- Claim C8 witness at the NotFound error. -/
theorem brokerRead_notfound_forbidden_witness :
    resourceBrokerRead false (Except.error FindErr.notFound) =
      ReadResult.removedFromState ∧
    resourceBrokerRead true (Except.error FindErr.notFound) =
      ReadResult.failed FindErr.notFound :=
  brokerRead_notfound_forbidden FindErr.notFound (Or.inl rfl)

/-- Claim C2: diffing a user collection (with unique usernames, the data
model invariant) against itself — or against the pointwise equivalent
collection in which only the order of each user's group list differs —
emits no create, delete or update operations. -/
theorem diffBrokerUsers_self_empty (bId : String) (X Y : List UserSpec)
    (hX : (X.map UserSpec.username).Nodup)
    (hXY : List.Forall₂ UserEquiv X Y) :
    DiffBrokerUsers bId X Y = ([], [], []) :=
  DiffBrokerUsers_equiv_empty bId hX hXY

/-- Claim C2 witness: diff of `[{a, groups [g1, g2]}]` against
`[{a, groups [g2, g1]}]` is empty. -/
theorem diffBrokerUsers_self_empty_witness :
    DiffBrokerUsers "b" [sampleUserOld] [sampleUserNew] = ([], [], []) :=
  diffBrokerUsers_self_empty "b" [sampleUserOld] [sampleUserNew] (by decide)
    (List.Forall₂.cons
      ⟨rfl, rfl, rfl, rfl, by
        intro g
        simp only [sampleUserOld, sampleUserNew, List.mem_cons,
          List.mem_singleton, List.not_mem_nil, or_false]
        tauto⟩
      List.Forall₂.nil)

/-- Claim C9: every create operation the differ emits never carries an
explicit empty group list (`some []`), and when the created user's group
list is empty the `Groups` field is left unset (`none`). -/
theorem diffBrokerUsers_create_empty_groups (bId : String)
    (old new : List UserSpec) (hnew : (new.map UserSpec.username).Nodup) :
    ∀ c ∈ brokerUserCreates bId old new,
      c.Groups ≠ some [] ∧
      (∀ u ∈ new, c.Username = u.username → u.groups = [] →
        c.Groups = none) := by
  intro c hc
  unfold brokerUserCreates at hc
  rw [DiffBrokerUsers_eq bId old new hnew] at hc
  obtain ⟨u', hu', hcu⟩ := List.mem_map.mp hc
  obtain ⟨humem, _⟩ := List.mem_filter.mp hu'
  constructor
  · rw [← hcu]
    by_cases hg : (canonUser u').groups.length > 0
    · show (if (canonUser u').groups.length > 0 then
          some ((canonUser u').groups) else none) ≠ some []
      rw [if_pos hg]
      intro hcon
      injection hcon with h2
      rw [h2] at hg
      simp at hg
    · show (if (canonUser u').groups.length > 0 then
          some ((canonUser u').groups) else none) ≠ some []
      rw [if_neg hg]
      intro hcon
      cases hcon
  · intro u hu hname hgroups
    have hu'u : u' = u := by
      apply List.inj_on_of_nodup_map hnew humem hu
      rw [← hname, ← hcu]
      rfl
    rw [← hcu, hu'u]
    show (if (canonUser u).groups.length > 0 then
        some ((canonUser u).groups) else none) = none
    have hce : (canonUser u).groups = [] := by
      show canonGroups u.groups = []
      rw [hgroups]
      rfl
    rw [hce]
    rfl

/-- Claim C9 witness: creating user `aa` with empty groups from scratch
leaves the `Groups` field unset. -/
theorem diffBrokerUsers_create_empty_groups_witness :
    mkCreateUserInput "b" (canonUser sampleUserNoGroups) ∈
      brokerUserCreates "b" [] [sampleUserNoGroups] ∧
    (mkCreateUserInput "b" (canonUser sampleUserNoGroups)).Groups = none :=
  ⟨by decide,
   (diffBrokerUsers_create_empty_groups "b" [] [sampleUserNoGroups]
      (by decide) (mkCreateUserInput "b" (canonUser sampleUserNoGroups))
      (by decide)).2 sampleUserNoGroups (by decide) rfl rfl⟩

/-- Claim C10: every update operation the differ emits carries the new
user's (canonical) group list in `Groups`, always set — including when that
list is empty, unlike creates. -/
theorem diffBrokerUsers_update_groups (bId : String)
    (old new : List UserSpec) (hnew : (new.map UserSpec.username).Nodup) :
    ∀ up ∈ brokerUserUpdates bId old new,
      ∃ u, u ∈ new ∧ up.Username = u.username ∧
        up.Groups = canonGroups u.groups := by
  intro up hup
  rw [brokerUserUpdates_eq bId old new hnew] at hup
  obtain ⟨u, hu, hupe⟩ := List.mem_map.mp hup
  obtain ⟨humem, _⟩ := List.mem_filter.mp hu
  refine ⟨u, humem, ?_, ?_⟩
  · rw [← hupe]
    rfl
  · rw [← hupe]
    rfl

/-- Claim C10 witness: updating user `aa` from one group to an empty group
list emits an update whose `Groups` field is the (set) empty list. -/
theorem diffBrokerUsers_update_groups_witness :
    mkUpdateUserInput "b" (canonUser sampleUserNoGroups) ∈
      brokerUserUpdates "b" [sampleUserOneGroup] [sampleUserNoGroups] ∧
    (mkUpdateUserInput "b" (canonUser sampleUserNoGroups)).Groups = [] ∧
    (mkUpdateUserInput "b" (canonUser sampleUserNoGroups)).Groups =
      canonGroups sampleUserNoGroups.groups :=
  ⟨by decide, by decide,
   by
    obtain ⟨u, _, _, hg⟩ := diffBrokerUsers_update_groups "b"
      [sampleUserOneGroup] [sampleUserNoGroups] (by decide)
      (mkUpdateUserInput "b" (canonUser sampleUserNoGroups)) (by decide)
    have hu : u = sampleUserNoGroups := by
      have := diffBrokerUsers_update_groups "b"
        [sampleUserOneGroup] [sampleUserNoGroups] (by decide)
      exact by
        rcases List.mem_singleton.mp (by assumption : u ∈ [sampleUserNoGroups])
          with h
        exact h
    rw [hg, hu]⟩

/-- Claim C4: `flattenUsers` merges write-only passwords by username: a
remote-reported user whose username appears among the previously configured
users receives that user's declared password, and a remote-reported user
absent from the prior configuration has no password field set in its merged
entry. -/
theorem flattenUsers_password_merge (users : List RemoteUser)
    (cfgUsers : List UserSpec)
    (hn : (cfgUsers.map UserSpec.username).Nodup) :
    ∀ u ∈ users,
      flattenOneUser (buildPairs cfgUsers) u ∈ flattenUsers users cfgUsers ∧
      (flattenOneUser (buildPairs cfgUsers) u).username = u.Username ∧
      (∀ cu ∈ cfgUsers, cu.username = u.Username → cu.password ≠ "" →
        (flattenOneUser (buildPairs cfgUsers) u).password =
          some cu.password) ∧
      (¬ u.Username ∈ cfgUsers.map UserSpec.username →
        (flattenOneUser (buildPairs cfgUsers) u).password = none) := by
  intro u hu
  refine ⟨List.mem_map_of_mem _ hu, rfl, ?_, ?_⟩
  · intro cu hcu hname hpw
    have hl : lookupA (buildPairs cfgUsers) u.Username = some cu.password := by
      rw [lookupA_buildPairs cfgUsers hn]
      have hf := find?_key_unique UserSpec.username hn hcu
      rw [hname] at hf
      rw [hf]
      rfl
    unfold flattenOneUser
    rw [hl]
    simp [hpw]
  · intro habs
    have hl : lookupA (buildPairs cfgUsers) u.Username = none := by
      rw [lookupA_buildPairs cfgUsers hn,
        find?_key_eq_none UserSpec.username habs]
      rfl
    unfold flattenOneUser
    rw [hl]
    simp

/-- Claim C4 witness: prior user `alice`/`P` merged into remote `alice`
yields password `P`; remote `bob`, unknown to the prior state, gets no
password field. -/
theorem flattenUsers_password_merge_witness :
    (flattenOneUser (buildPairs [sampleUserAlice]) sampleRemoteAlice).password
      = some "P" ∧
    (flattenOneUser (buildPairs [sampleUserAlice]) sampleRemoteBob).password
      = none :=
  ⟨(flattenUsers_password_merge [sampleRemoteAlice, sampleRemoteBob]
      [sampleUserAlice] (by decide) sampleRemoteAlice
      (by decide)).2.2.1 sampleUserAlice (by decide) rfl (by decide),
   (flattenUsers_password_merge [sampleRemoteAlice, sampleRemoteBob]
      [sampleUserAlice] (by decide) sampleRemoteBob
      (by decide)).2.2.2 (by decide)⟩

/-- Claim C5: `resourceBrokerUpdate` issues a reboot iff apply-immediately
is set and at least one reboot-requiring field group was applied
(configuration/logs/engine-version, users actually changed, host instance
type, auto-minor-version-upgrade, or maintenance window); an update in which
only `security_groups` changed issues exactly one remote call and never a
reboot, even with apply-immediately set. -/
theorem brokerUpdate_reboot_iff (bId : String) (applyImmediately : Bool)
    (ch : BrokerChanges) (oldUsers newUsers : List UserSpec)
    (hold : (oldUsers.map UserSpec.username).Nodup) :
    (BrokerCall.rebootBroker ∈
        resourceBrokerUpdate bId applyImmediately ch oldUsers newUsers ↔
      (applyImmediately = true ∧
        (ch.configuration_logs_engine_version = true ∨
         (ch.user = true ∧ userOpCalls bId oldUsers newUsers ≠ []) ∨
         ch.host_instance_type = true ∨
         ch.auto_minor_version_upgrade = true ∨
         ch.maintenance_window_start_time = true))) ∧
    (ch.security_groups = true → ch.configuration_logs_engine_version = false →
     ch.host_instance_type = false → ch.auto_minor_version_upgrade = false →
     ch.maintenance_window_start_time = false → oldUsers = newUsers →
     resourceBrokerUpdate bId applyImmediately ch oldUsers newUsers =
       [BrokerCall.updateSecurityGroups]) := by
  have huser : BrokerCall.rebootBroker ∉ userOpCalls bId oldUsers newUsers := by
    intro hmem
    unfold userOpCalls at hmem
    rcases List.mem_append.mp hmem with h | h
    · rcases List.mem_append.mp h with h | h
      · obtain ⟨c, _, hc⟩ := List.mem_map.mp h
        exact BrokerCall.noConfusion hc
      · obtain ⟨d, _, hd⟩ := List.mem_map.mp h
        exact BrokerCall.noConfusion hd
    · obtain ⟨x, _, hx⟩ := List.mem_map.mp h
      exact BrokerCall.noConfusion hx
  obtain ⟨sg, cfg, usr, hit, amv, mw⟩ := ch
  constructor
  · by_cases hue : userOpCalls bId oldUsers newUsers = []
    · have hie : (userOpCalls bId oldUsers newUsers).isEmpty = true := by
        simp [hue]
      cases applyImmediately <;> cases sg <;> cases cfg <;> cases usr <;>
        cases hit <;> cases amv <;> cases mw <;>
        simp [resourceBrokerUpdate, hue, hie, huser]
    · have hie : (userOpCalls bId oldUsers newUsers).isEmpty = false := by
        cases hh : (userOpCalls bId oldUsers newUsers).isEmpty
        · rfl
        · exact absurd (List.isEmpty_iff.mp hh) hue
      cases applyImmediately <;> cases sg <;> cases cfg <;> cases usr <;>
        cases hit <;> cases amv <;> cases mw <;>
        simp [resourceBrokerUpdate, hue, hie, huser]
  · intro hsg hcfg hhit hamv hmw hsame
    subst hsame
    have heqv : List.Forall₂ UserEquiv oldUsers oldUsers := by
      rw [List.forall₂_same]
      intro x _
      exact ⟨rfl, rfl, rfl, rfl, fun g => Iff.rfl⟩
    have hde : userOpCalls bId oldUsers oldUsers = [] := by
      unfold userOpCalls brokerUserCreates brokerUserDeletes brokerUserUpdates
      rw [DiffBrokerUsers_equiv_empty bId hold heqv]
      rfl
    simp only at hsg hcfg hhit hamv hmw
    subst hsg hcfg hhit hamv hmw
    cases usr <;> cases applyImmediately <;>
      simp [resourceBrokerUpdate, hde]

/-- Claim C5 witness: with only security groups changed (and a spuriously
reported user change whose diff is empty), the update is exactly one
security-group call, with apply-immediately set. -/
theorem brokerUpdate_reboot_iff_witness :
    resourceBrokerUpdate "b" true
      { security_groups := true, configuration_logs_engine_version := false,
        user := true, host_instance_type := false,
        auto_minor_version_upgrade := false,
        maintenance_window_start_time := false }
      [sampleUserOld] [sampleUserOld] =
      [BrokerCall.updateSecurityGroups] :=
  (brokerUpdate_reboot_iff "b" true
    { security_groups := true, configuration_logs_engine_version := false,
      user := true, host_instance_type := false,
      auto_minor_version_upgrade := false,
      maintenance_window_start_time := false }
    [sampleUserOld] [sampleUserOld] (by decide)).2 rfl rfl rfl rfl rfl rfl

/-- Claim C1: for collections with unique usernames, the differ emits one
create per username only in `new`, one update per username in both whose
(canonicalised) specs differ, one delete per username only in `old`, and
nothing for unchanged usernames; the created, updated, unchanged and
deleted username lists are pairwise disjoint, duplicate-free, and together
cover exactly `old ∪ new`; applying creates, deletes and updates to the old
user map yields a user map structurally equal to that of `new`. -/
theorem diffBrokerUsers_partition (bId : String) (old new : List UserSpec)
    (hold : (old.map UserSpec.username).Nodup)
    (hnew : (new.map UserSpec.username).Nodup) :
    (brokerUserCreates bId old new).map CreateUserInput.Username =
      (new.filter (fun u =>
        !((old.map UserSpec.username).contains u.username))).map
        UserSpec.username ∧
    (brokerUserUpdates bId old new).map UpdateUserInput.Username =
      (new.filter (fun u => changedFromOld old u)).map UserSpec.username ∧
    (brokerUserDeletes bId old new).map DeleteUserInput.Username =
      (old.filter (fun u =>
        !((new.map UserSpec.username).contains u.username))).map
        UserSpec.username ∧
    ((brokerUserCreates bId old new).map CreateUserInput.Username
      ++ (brokerUserUpdates bId old new).map UpdateUserInput.Username
      ++ (new.filter (fun u => unchangedFromOld old u)).map UserSpec.username
      ++ (brokerUserDeletes bId old new).map DeleteUserInput.Username).Nodup ∧
    (∀ k, k ∈ (brokerUserCreates bId old new).map CreateUserInput.Username
      ++ (brokerUserUpdates bId old new).map UpdateUserInput.Username
      ++ (new.filter (fun u => unchangedFromOld old u)).map UserSpec.username
      ++ (brokerUserDeletes bId old new).map DeleteUserInput.Username ↔
      k ∈ old.map UserSpec.username ∨ k ∈ new.map UserSpec.username) ∧
    (∀ k, lookupA (applyUpdates (brokerUserUpdates bId old new)
        (applyDeletes (brokerUserDeletes bId old new)
          (applyCreates (brokerUserCreates bId old new)
            (buildExisting old)))) k = lookupA (buildExisting new) k) :=
  ⟨brokerUserCreates_names bId old new hold hnew,
   brokerUserUpdates_names bId old new hnew,
   brokerUserDeletes_names bId old new hold hnew,
   diff_names_nodup bId old new hold hnew,
   fun k => diff_names_union bId old new hold hnew k,
   fun k => apply_diff_lookup bId old new hold hnew k⟩

/-- Claim C1 witness: applying the diff of a concrete two-user old
collection against a two-user new collection (one changed user, one delete,
one create) reproduces the new collection's entry for username `a`. -/
theorem diffBrokerUsers_partition_witness :
    lookupA (applyUpdates
        (brokerUserUpdates "b" [sampleUserOld, sampleUserAlice]
          [sampleUserNew, sampleUserNoGroups])
        (applyDeletes
          (brokerUserDeletes "b" [sampleUserOld, sampleUserAlice]
            [sampleUserNew, sampleUserNoGroups])
          (applyCreates
            (brokerUserCreates "b" [sampleUserOld, sampleUserAlice]
              [sampleUserNew, sampleUserNoGroups])
            (buildExisting [sampleUserOld, sampleUserAlice])))) "a" =
      lookupA (buildExisting [sampleUserNew, sampleUserNoGroups]) "a" :=
  (diffBrokerUsers_partition "b" [sampleUserOld, sampleUserAlice]
    [sampleUserNew, sampleUserNoGroups]
    (by decide) (by decide)).2.2.2.2.2 "a"

end MQBroker
